import Mathlib

/-!
Verification of the transformation logic of `src/utils/visualization_networkx.py`
(repository CoarseNet): a routine `visualize_micro_macro` that draws a fine
("micro") graph and its coarse-grained ("macro") version side by side.

The shallow embedding below models the pure data transformations of the file:
Python dicts become association lists (`List (α × β)`) in insertion order,
dict lookup returns `Option` (`none` models a `KeyError`), Python numbers
become `ℚ`, and fallible operations (`ZeroDivisionError`, `ValueError` from
`max` of an empty sequence, `IndexError`, `NameError`) return `Option` or an
explicit outcome type.  The drawing calls themselves (matplotlib/networkx) are
outside the model; everything that feeds them (maps, positions, colors, sizes,
widths) is embedded.
-/

namespace CoarseNet

/-! ### Module namespace of visualization_networkx.py (lines 10-13 and 15)

The module's top-level bindings are exactly the four imports and the function
itself; the two mapping helpers called at lines 51 and 53 are not among them.
-/

/-- Top-level names bound by the module: the four imports of lines 10-13
(`plt`, `np`, `mpl`, `nx`) and the single def of line 15. -/
def module_defined_names : List String :=
  ["plt", "np", "mpl", "nx", "visualize_micro_macro"]

/-- Python builtins referenced by the function body (always resolvable). -/
def python_builtins : List String :=
  ["min", "max", "len", "enumerate"]

/-- A global name resolves iff it is a module binding or a builtin. -/
def resolves (n : String) : Bool :=
  module_defined_names.contains n || python_builtins.contains n

/-- Global names referenced by the body of `visualize_micro_macro`, in order of
first evaluation, up to and including the two mapping-helper calls of lines 51
and 53 (`plt` at line 46; the line-47/48 branch touches only locals and
attributes, on either branch). -/
def globals_referenced_before_maps : List String :=
  ["plt", "get_micro2macro_dict_from_pd_df",
   "get_macro2microlist_dict_from_micro2macro_dict"]

/-- The first referenced global that does not resolve, if any: Python raises
`NameError` at that reference. -/
def first_unresolved_global : Option String :=
  globals_referenced_before_maps.find? (fun n => ! resolves n)

/-- Outcome of running a straight-line piece of Python code. -/
inductive PyOutcome (α : Type) where
  | ok (a : α)
  | nameError (n : String)
  deriving DecidableEq

/-- The prelude of `visualize_micro_macro` (lines 46-53) as run on arbitrary
arguments: line 46 resolves `plt`; line 51 then looks up
`get_micro2macro_dict_from_pd_df` in the module namespace before any map is
built, and line 53 would look up `get_macro2microlist_dict_from_micro2macro_dict`.
The arguments play no role in name resolution. -/
def visualize_micro_macro_prelude {Gm Mp GM : Type} (x : Gm) (y : Mp) (z : GM) :
    PyOutcome Unit :=
  if resolves "plt" then
    if resolves "get_micro2macro_dict_from_pd_df" then
      if resolves "get_macro2microlist_dict_from_micro2macro_dict" then
        PyOutcome.ok ()
      else PyOutcome.nameError "get_macro2microlist_dict_from_micro2macro_dict"
    else PyOutcome.nameError "get_micro2macro_dict_from_pd_df"
  else PyOutcome.nameError "plt"

/-! ### Python dict primitives -/

/-- Python dict lookup `d[x]` on an association list in insertion order:
`none` models a `KeyError`. -/
def dict_lookup {α β : Type} [DecidableEq α] : List (α × β) → α → Option β
  | [], _ => none
  | (a, b) :: rest, x => if x = a then some b else dict_lookup rest x

/-- Python dict assignment `d[a] = b`: overwrites in place when the key exists,
appends otherwise (Python dicts preserve first-insertion order). -/
def dict_insert {α β : Type} [DecidableEq α] : List (α × β) → α → β → List (α × β)
  | [], a, b => [(a, b)]
  | (x, y) :: rest, a, b =>
    if a = x then (x, b) :: rest else (x, y) :: dict_insert rest a b

/-- Keys of a dict in iteration order. -/
def dict_keys {α β : Type} (d : List (α × β)) : List α :=
  d.map Prod.fst

/-- First-seen deduplication, accumulating the elements already seen:
models the key order of a dict built by repeated insertion. -/
def first_seen_aux {α : Type} [DecidableEq α] : List α → List α → List α
  | [], _ => []
  | c :: rest, seen =>
    if c ∈ seen then first_seen_aux rest seen
    else c :: first_seen_aux rest (c :: seen)

/-- The distinct elements of a list in first-seen order. -/
def first_seen {α : Type} [DecidableEq α] (l : List α) : List α :=
  first_seen_aux l []

/-! ### The rescale function (source lines 102-112, 126-136, 153-163)

All three local `rescale_weight` definitions share one body; the captured
default arguments are passed explicitly here.  `none` models the
`ZeroDivisionError` Python raises when `max_weight == min_weight` while
`max_size != min_size` (the code only guards the output range). -/

/-- Shallow embedding of the source's `rescale_weight`. -/
def rescale_weight (weight min_weight max_weight min_size max_size : ℚ) :
    Option ℚ :=
  if max_size = min_size then some min_size
  else if max_weight = min_weight then none
  else some (min_size + (weight - min_weight) / (max_weight - min_weight)
      * (max_size - min_size))

/-! ### The mapping translator (lines 50-53)

`get_micro2macro_dict_from_pd_df` and
`get_macro2microlist_dict_from_micro2macro_dict` are called at lines 51 and 53
but are defined nowhere in the repository; both are modelled from the spec. -/

/-- Modelled from the spec: `get_micro2macro_dict_from_pd_df` is called at line
51 of visualization_networkx.py but is not defined in the source.  Spec 4.1,
Operation 1: "build mapping fine -> coarse by iterating rows"; a duplicate fine
identifier is a precondition violation there, and a later row overwrites an
earlier one as Python dict assignment does.  A dataframe row is a
(fine, coarse) pair. -/
def get_micro2macro_dict_from_pd_df {μ κ : Type} [DecidableEq μ]
    (rows : List (μ × κ)) : List (μ × κ) :=
  rows.foldl (fun d p => dict_insert d p.1 p.2) []

/-- Modelled from the spec: `get_macro2microlist_dict_from_micro2macro_dict` is
called at line 53 of visualization_networkx.py but is not defined in the
source.  Spec 4.1, Operation 2: "for each coarse identifier appearing as a
value in the forward map, collect the ordered set of fine identifiers that map
to it (grouping, not sorting - order follows first-seen iteration order of the
forward map)". -/
def get_macro2microlist_dict_from_micro2macro_dict {μ κ : Type} [DecidableEq κ]
    (m : List (μ × κ)) : List (κ × List μ) :=
  (first_seen (m.map Prod.snd)).map
    (fun c => (c, (m.filter (fun p => p.2 = c)).map Prod.fst))

/-! ### The layout deriver (lines 58-61) -/

/-- `np.sum(..., axis=0)` over a list of 2-D vectors: componentwise sum. -/
def np_sum_axis0 : List (ℚ × ℚ) → ℚ × ℚ
  | [] => (0, 0)
  | p :: rest => (p.1 + (np_sum_axis0 rest).1, p.2 + (np_sum_axis0 rest).2)

/-- `np.mean(..., axis=0)` over a list of 2-D vectors: componentwise sum
divided by the number of vectors. -/
def np_mean_axis0 (l : List (ℚ × ℚ)) : ℚ × ℚ :=
  ((np_sum_axis0 l).1 / (l.length : ℚ), (np_sum_axis0 l).2 / (l.length : ℚ))

/-- The source's `pos_macro` dict (lines 59-61): for each macro node of the
inverse map, `np.mean` of the positions of its micro nodes, axis 0. -/
def pos_macro_dict {μ κ : Type} (inv : List (κ × List μ)) (pos : μ → ℚ × ℚ) :
    List (κ × (ℚ × ℚ)) :=
  inv.map (fun p => (p.1, np_mean_axis0 (p.2.map pos)))

/-- The spec's wording of centroid correctness (4.2, 8.2): the arithmetic mean
of a list of rationals. -/
def list_mean (l : List ℚ) : ℚ :=
  l.sum / (l.length : ℚ)

/-- The spec's wording of centroid correctness: componentwise arithmetic mean
of 2-D positions. -/
def componentwise_mean (l : List (ℚ × ℚ)) : ℚ × ℚ :=
  (list_mean (l.map Prod.fst), list_mean (l.map Prod.snd))

/-! ### The color assigner, selective mode (lines 69-79) -/

/-- A color for a macro node: a point of the categorical colormap
(`mpl.colormaps[node_cmap](t)`, identified by its sample point `t`) or the
neutral node color `nc`. -/
inductive MacroColor where
  | cmapColor (t : ℚ)
  | neutral
  deriving DecidableEq

/-- `np.linspace(0, 1, k)`: `k` evenly spaced sample points of `[0, 1]`
(`[]` for `k = 0`, `[0]` for `k = 1`, step `1 / (k - 1)` otherwise). -/
def np_linspace01 (k : ℕ) : List ℚ :=
  if k ≤ 1 then (List.range k).map (fun _ => (0 : ℚ))
  else (List.range k).map (fun i : ℕ => (i : ℚ) / ((k : ℚ) - 1))

/-- Line 70: `len([_ for _ in macro2microlist_dict.values() if len(_) > 1])`. -/
def number_of_big_macro_nodes {μ κ : Type} (inv : List (κ × List μ)) : ℕ :=
  (inv.filter (fun p => 1 < p.2.length)).length

/-- The projection selecting non-neutral colors and their sample points. -/
def cmap_part : MacroColor → Option ℚ
  | MacroColor.cmapColor t => some t
  | MacroColor.neutral => none

/-- The loop of lines 73-79 over the macro nodes (the keys of `pos_macro`, in
inverse-map order): a node with more than one member gets
`macro_colors[index_color]` (with `index_color` then incremented; `none`
models an `IndexError` past the end of the palette), any other node gets the
neutral node color `nc`. -/
def selective_go {μ κ : Type} :
    List (κ × List μ) → List ℚ → ℕ → Option (List (κ × MacroColor))
  | [], _, _ => some []
  | p :: rest, palette, idx =>
    if 1 < p.2.length then
      match palette[idx]? with
      | none => none
      | some t =>
        (selective_go rest palette (idx + 1)).map
          (fun l => (p.1, MacroColor.cmapColor t) :: l)
    else
      (selective_go rest palette idx).map
        (fun l => (p.1, MacroColor.neutral) :: l)

/-- Lines 70-79 (`all_colorful == False`): the palette is
`mpl.colormaps[node_cmap](np.linspace(0, 1, number_of_big_macro_nodes))` and
the loop assigns it in order. -/
def macro_colors_selective {μ κ : Type} (inv : List (κ × List μ)) :
    Option (List (κ × MacroColor)) :=
  selective_go inv (np_linspace01 (number_of_big_macro_nodes inv)) 0

/-! ### Fine-node colors (lines 82-84) -/

/-- The loop of lines 82-84: for each micro node (the keys of `pos_micro`),
`micro_colors_dict[micro_node] = macro_colors_dict[micro2macro_dict[micro_node]]`;
`none` models a `KeyError` in either lookup. -/
def micro_colors_dict {μ κ : Type} [DecidableEq μ] [DecidableEq κ]
    (micro_nodes : List μ) (m2m : List (μ × κ))
    (mcolors : List (κ × MacroColor)) : Option (List (μ × MacroColor)) :=
  match micro_nodes with
  | [] => some []
  | m :: rest =>
    match dict_lookup m2m m with
    | none => none
    | some c =>
      match dict_lookup mcolors c with
      | none => none
      | some col =>
        (micro_colors_dict rest m2m mcolors).map (fun l => (m, col) :: l)

/-! ### Edge-weight scans and macro node sizes (lines 96-100, 124-141, 147-151) -/

/-- Python's `max(...)` over a list: `none` models the `ValueError` raised on
an empty sequence. -/
def py_max : List ℕ → Option ℕ
  | [] => none
  | x :: rest =>
    match py_max rest with
    | none => some x
    | some m => some (max x m)

/-- The sentinel-initialised min/max edge-weight scan of lines 96-100 (and
147-151): starts from `(1000000000, -1000000000)` and never fails, an empty
edge list included. -/
def edge_weight_scan (weights : List ℚ) : ℚ × ℚ :=
  weights.foldl (fun s w => (min s.1 w, max s.2 w)) (1000000000, -1000000000)

/-- The node-size list comprehension of line 141, one entry per macro node of
the inverse map: `rescale_weight(len(macro2microlist_dict[node]))` with the
captured defaults `min_weight = 1`, `max_weight = max_weight_macro`.  A
`ZeroDivisionError` inside `rescale_weight` aborts the whole comprehension. -/
def size_list {μ κ : Type} :
    List (κ × List μ) → ℕ → ℚ → ℚ → Option (List (κ × ℚ))
  | [], _, _, _ => some []
  | p :: rest, mx, lo, hi =>
    match rescale_weight ((p.2.length : ℚ)) 1 (mx : ℚ) lo hi with
    | none => none
    | some s => (size_list rest mx lo hi).map (fun l => (p.1, s) :: l)

/-- Lines 124-141: `min_weight_macro = 1`,
`max_weight_macro = max([len(_) for _ in macro2microlist_dict.values()])`
(`none` models the `ValueError` of `max` on an empty sequence), then the
rescaled node size of every macro node. -/
def macro_node_sizes {μ κ : Type} (inv : List (κ × List μ)) (lo hi : ℚ) :
    Option (List (κ × ℚ)) :=
  match py_max (inv.map (fun p => p.2.length)) with
  | none => none
  | some mx => size_list inv mx lo hi

/-! ## Theorems -/

/-- C1: for every input (any micro graph, macro graph and mapping), a call to
`visualize_micro_macro` raises a `NameError` before any map is built: the first
unresolved global reached is `get_micro2macro_dict_from_pd_df` at line 51, and
`get_macro2microlist_dict_from_micro2macro_dict` (line 53) is likewise neither
defined in the source file nor imported by it, so the mapping translator has no
implementation in the source. -/
theorem missing_mapping_helpers {Gm Mp GM : Type} (x : Gm) (y : Mp) (z : GM) :
    visualize_micro_macro_prelude x y z
      = PyOutcome.nameError "get_micro2macro_dict_from_pd_df" ∧
    first_unresolved_global = some "get_micro2macro_dict_from_pd_df" ∧
    resolves "get_macro2microlist_dict_from_micro2macro_dict" = false :=
  ⟨rfl, rfl, rfl⟩

/-- Witness for C1 at concrete inputs. -/
theorem missing_mapping_helpers_witness :
    visualize_micro_macro_prelude (0 : ℕ) (1 : ℕ) (2 : ℕ)
      = PyOutcome.nameError "get_micro2macro_dict_from_pd_df" ∧
    first_unresolved_global = some "get_micro2macro_dict_from_pd_df" ∧
    resolves "get_macro2microlist_dict_from_micro2macro_dict" = false :=
  missing_mapping_helpers 0 1 2

/-- C2, counterexample: with the degenerate input range `min_value = max_value
= 2` and the distinct output range `60 .. 300`, `rescale_weight` does not
return `lo = 60`; it divides by zero (`none` models the `ZeroDivisionError`),
because the source only guards `max_size == min_size`. -/
theorem rescale_degenerate_input_not_lo :
    rescale_weight 5 2 2 60 300 ≠ some 60 ∧
    rescale_weight 5 2 2 60 300 = none := by
  refine ⟨?_, rfl⟩
  intro h
  simp [rescale_weight] at h

/-- C2, amended: with a degenerate input range, `rescale_weight` returns `lo`
exactly when the output range is itself degenerate (`hi = lo`, the only guard
the source has); when `hi ≠ lo` it raises `ZeroDivisionError` instead. -/
theorem rescale_degeneracy_amended (x v lo hi : ℚ) :
    rescale_weight x v v lo lo = some lo ∧
    (hi ≠ lo → rescale_weight x v v lo hi = none) := by
  constructor
  · simp [rescale_weight]
  · intro h
    simp [rescale_weight, h]

/-- Witness for C2's amended theorem at concrete inputs. -/
theorem rescale_degeneracy_amended_witness :
    rescale_weight 7 3 3 60 60 = some 60 ∧
    rescale_weight 7 3 3 60 300 = none :=
  ⟨(rescale_degeneracy_amended 7 3 60 300).1,
   (rescale_degeneracy_amended 7 3 60 300).2 (by norm_num)⟩

/-- C3, counterexample: in the end-to-end scenario (mapping 1→A, 2→A, 3→B,
4→B, member counts 2 and 2, default `min_ns = 60`, `max_ns = 300`), the
node-size domain is `min_weight_macro = 1`, `max_weight_macro = 2` — not
degenerate — and both coarse nodes get size 300 = `max_ns`, not the minimum
output 60 the claim states. -/
theorem end_to_end_sizes_counterexample :
    macro_node_sizes [(10, [1, 2]), (20, [3, 4])] 60 300
      = some [(10, 300), (20, 300)] ∧ (300 : ℚ) ≠ 60 := by
  constructor
  · simp [macro_node_sizes, py_max, size_list, rescale_weight]
    norm_num
  · norm_num

/-- C3, amended: in the end-to-end scenario the node-size rescaling domain is
`(1, 2)` (the source fixes the domain minimum at 1), so it is not degenerate,
and for every output range both coarse nodes — member count 2, equal to the
domain maximum — are drawn with the `max_ns` output. -/
theorem end_to_end_sizes_amended (lo hi : ℚ) :
    macro_node_sizes [(10, [1, 2]), (20, [3, 4])] lo hi
      = some [(10, hi), (20, hi)] := by
  by_cases h : hi = lo
  · subst h
    simp [macro_node_sizes, py_max, size_list, rescale_weight]
  · simp [macro_node_sizes, py_max, size_list, rescale_weight, h]
    ring

/-- Witness for C3's amended theorem at concrete outputs. -/
theorem end_to_end_sizes_amended_witness :
    macro_node_sizes [(10, [1, 2]), (20, [3, 4])] 60 300
      = some [(10, 300), (20, 300)] :=
  end_to_end_sizes_amended 60 300

/-- C9: on empty graphs the claim fails in the source: the computation
`max([len(_) for _ in macro2microlist_dict.values()])` of line 125 raises
`ValueError` on the empty inverse map (so the macro node-size computation
aborts), even though the sentinel-initialised edge-weight scans of lines
96-100 and 147-151 do tolerate empty edge lists. -/
theorem empty_graph_member_count_crash :
    py_max (([] : List (ℕ × List ℕ)).map (fun p => p.2.length)) = none ∧
    macro_node_sizes ([] : List (ℕ × List ℕ)) 60 300 = none ∧
    edge_weight_scan [] = (1000000000, -1000000000) :=
  ⟨rfl, rfl, rfl⟩

/-- C6: for every valid input range (`minw < maxw`) and every output range,
`rescale_weight` maps the input minimum to `lo` and the input maximum to `hi`,
and is monotonically non-decreasing in its value argument whenever
`lo ≤ hi`. -/
theorem rescale_linearity (minw maxw lo hi : ℚ) (h : minw < maxw) :
    rescale_weight minw minw maxw lo hi = some lo ∧
    rescale_weight maxw minw maxw lo hi = some hi ∧
    (lo ≤ hi → ∀ w w' y y', w ≤ w' →
      rescale_weight w minw maxw lo hi = some y →
      rescale_weight w' minw maxw lo hi = some y' → y ≤ y') := by
  have hne : maxw ≠ minw := ne_of_gt h
  by_cases hs : hi = lo
  · subst hs
    refine ⟨by simp [rescale_weight], by simp [rescale_weight], ?_⟩
    intro _ w w' y y' _ hy hy'
    simp [rescale_weight] at hy hy'
    rw [← hy, ← hy']
  · refine ⟨?_, ?_, ?_⟩
    · simp [rescale_weight, hs, hne]
    · simp only [rescale_weight, if_neg hs, if_neg hne, Option.some_inj]
      rw [div_self (sub_ne_zero.mpr hne)]
      ring
    · intro hlohi w w' y y' hww hy hy'
      simp only [rescale_weight, if_neg hs, if_neg hne, Option.some_inj] at hy hy'
      subst hy
      subst hy'
      have hd : (0 : ℚ) < maxw - minw := sub_pos.mpr h
      have hq : (0 : ℚ) ≤ hi - lo := sub_nonneg.mpr hlohi
      have hnum : (0 : ℚ) ≤ ((w' - minw) - (w - minw)) / (maxw - minw) * (hi - lo) :=
        mul_nonneg (div_nonneg (by linarith) (le_of_lt hd)) hq
      have hsplit : ((w' - minw) - (w - minw)) / (maxw - minw) * (hi - lo)
          = (w' - minw) / (maxw - minw) * (hi - lo)
            - (w - minw) / (maxw - minw) * (hi - lo) := by
        field_simp
        ring
      rw [hsplit] at hnum
      linarith

/-- Witness for C6 at a concrete valid range. -/
theorem rescale_linearity_witness :
    rescale_weight 0 0 2 60 300 = some 60 ∧
    rescale_weight 2 0 2 60 300 = some 300 ∧
    (180 : ℚ) ≤ 300 :=
  ⟨(rescale_linearity 0 2 60 300 (by norm_num)).1,
   (rescale_linearity 0 2 60 300 (by norm_num)).2.1,
   (rescale_linearity 0 2 60 300 (by norm_num)).2.2 (by norm_num) 1 2 180 300
     (by norm_num)
     (by simp [rescale_weight]; norm_num)
     (rescale_linearity 0 2 60 300 (by norm_num)).2.1⟩

/-! ### Helper lemmas on dict lookup and componentwise means -/

/-- Looking a macro node up in the derived position dict finds the `np.mean`
of its members' positions. -/
theorem pos_macro_dict_lookup {μ κ : Type} [DecidableEq κ] (pos : μ → ℚ × ℚ) :
    ∀ (inv : List (κ × List μ)) (c : κ),
      dict_lookup (pos_macro_dict inv pos) c
        = (dict_lookup inv c).map (fun mem => np_mean_axis0 (mem.map pos))
  | [], _ => rfl
  | (a, b) :: rest, c => by
    simp only [pos_macro_dict, List.map_cons, dict_lookup]
    by_cases hx : c = a
    · simp [hx]
    · simp only [if_neg hx, Option.map]
      exact pos_macro_dict_lookup pos rest c

/-- The componentwise sum equals the pair of sums of the components. -/
theorem np_sum_axis0_eq :
    ∀ l : List (ℚ × ℚ),
      np_sum_axis0 l = ((l.map Prod.fst).sum, (l.map Prod.snd).sum)
  | [] => rfl
  | p :: rest => by
    simp [np_sum_axis0, np_sum_axis0_eq rest]

/-- `np.mean(..., axis=0)` is the componentwise arithmetic mean. -/
theorem np_mean_axis0_eq_componentwise (l : List (ℚ × ℚ)) :
    np_mean_axis0 l = componentwise_mean l := by
  simp [np_mean_axis0, componentwise_mean, list_mean, np_sum_axis0_eq]

/-- C5: for every coarse node `c` with a non-empty member list in the inverse
map, the derived position of `c` (lines 58-61) equals the componentwise
arithmetic mean of the 2-D positions of all fine nodes in `inverse_map[c]`. -/
theorem centroid_correctness {μ κ : Type} [DecidableEq κ]
    (inv : List (κ × List μ)) (pos : μ → ℚ × ℚ) (c : κ) (lst : List μ)
    (hc : dict_lookup inv c = some lst) (hne : lst ≠ []) :
    dict_lookup (pos_macro_dict inv pos) c
      = some (componentwise_mean (lst.map pos)) := by
  rw [pos_macro_dict_lookup pos inv c, hc]
  simp [np_mean_axis0_eq_componentwise]

/-- Witness for C5 at a concrete inverse map and position assignment. -/
theorem centroid_correctness_witness :
    dict_lookup
        (pos_macro_dict [(10, [1, 2])] (fun m => ((m : ℚ), 2 * (m : ℚ)))) 10
      = some (componentwise_mean
          ([1, 2].map (fun m => ((m : ℚ), 2 * (m : ℚ))))) :=
  centroid_correctness [(10, [1, 2])] (fun m => ((m : ℚ), 2 * (m : ℚ)))
    10 [1, 2] rfl (by decide)

/-- C8: for every fine node the loop of lines 82-84 processes, the color it
assigns equals the color of the node's coarse node, obtained by forward-map
lookup followed by color-map lookup. -/
theorem color_consistency {μ κ : Type} [DecidableEq μ] [DecidableEq κ] :
    ∀ (micro_nodes : List μ) (m2m : List (μ × κ))
      (mcolors : List (κ × MacroColor)) (l : List (μ × MacroColor)),
      micro_colors_dict micro_nodes m2m mcolors = some l →
      List.Forall₂ (fun (m : μ) (q : μ × MacroColor) =>
        q.1 = m ∧ ∃ c, dict_lookup m2m m = some c ∧
          dict_lookup mcolors c = some q.2) micro_nodes l := by
  intro micro_nodes
  induction micro_nodes with
  | nil =>
    intro m2m mcolors l h
    simp only [micro_colors_dict, Option.some_inj] at h
    rw [← h]
    exact List.Forall₂.nil
  | cons m rest ih =>
    intro m2m mcolors l h
    rw [micro_colors_dict] at h
    split at h
    next => exact absurd h (by simp)
    next c hm =>
      split at h
      next => exact absurd h (by simp)
      next col hcol =>
        cases hrest : micro_colors_dict rest m2m mcolors with
        | none => rw [hrest] at h; exact absurd h (by simp)
        | some l0 =>
          rw [hrest] at h
          simp only [Option.map_some', Option.some_inj] at h
          rw [← h]
          exact List.Forall₂.cons ⟨rfl, c, hm, hcol⟩ (ih m2m mcolors l0 hrest)

/-- Witness for C8 at a concrete mapping and color map. -/
theorem color_consistency_witness :
    List.Forall₂ (fun (m : ℕ) (q : ℕ × MacroColor) =>
      q.1 = m ∧ ∃ c, dict_lookup [(1, 10), (2, 10)] m = some c ∧
        dict_lookup [(10, MacroColor.cmapColor 0)] c = some q.2)
      [1, 2] [(1, MacroColor.cmapColor 0), (2, MacroColor.cmapColor 0)] :=
  color_consistency [1, 2] [(1, 10), (2, 10)] [(10, MacroColor.cmapColor 0)]
    [(1, MacroColor.cmapColor 0), (2, MacroColor.cmapColor 0)] rfl

/-- C10: in selective mode with `k = 0` (no coarse node has more than one
member), the coloring loop does not crash on the degenerate palette split and
every coarse node receives the neutral node color. -/
theorem selective_all_neutral {μ κ : Type} (inv : List (κ × List μ))
    (hall : ∀ p ∈ inv, ¬ 1 < (p.2 : List μ).length) :
    macro_colors_selective inv
      = some (inv.map (fun p => (p.1, MacroColor.neutral))) := by
  have go_all : ∀ (l : List (κ × List μ)) (palette : List ℚ) (idx : ℕ),
      (∀ p ∈ l, ¬ 1 < (p.2 : List μ).length) →
      selective_go l palette idx
        = some (l.map (fun p => (p.1, MacroColor.neutral))) := by
    intro l
    induction l with
    | nil => intro palette idx _; rfl
    | cons p rest ih =>
      intro palette idx h
      have hp : ¬ 1 < p.2.length := h p (List.mem_cons_self p rest)
      simp [selective_go, hp,
        ih palette idx (fun q hq => h q (List.mem_cons_of_mem p hq))]
  exact go_all inv _ 0 hall

/-- Witness for C10 at a concrete inverse map with only singleton members. -/
theorem selective_all_neutral_witness :
    macro_colors_selective [(10, [1]), (20, [2])]
      = some [(10, MacroColor.neutral), (20, MacroColor.neutral)] :=
  selective_all_neutral [(10, [1]), (20, [2])] (by decide)

/-! ### Helper lemmas for the mapping round-trip -/

/-- Inserting into a dict leaves the keys unchanged when the key is present
and appends it otherwise. -/
theorem dict_insert_keys {α β : Type} [DecidableEq α] (a : α) (b : β) :
    ∀ d : List (α × β),
      (dict_insert d a b).map Prod.fst
        = if a ∈ d.map Prod.fst then d.map Prod.fst
          else d.map Prod.fst ++ [a]
  | [] => by simp [dict_insert]
  | (x, y) :: rest => by
    by_cases hax : a = x
    · simp [dict_insert, hax]
    · simp only [dict_insert, if_neg hax, List.map_cons, dict_insert_keys a b rest]
      by_cases hmem : a ∈ rest.map Prod.fst
      · simp [hmem, hax]
      · simp [hmem, hax]

/-- Folding dict insertions over rows preserves key nodup-ness. -/
theorem foldl_insert_keys_nodup {α β : Type} [DecidableEq α] :
    ∀ (rows : List (α × β)) (d : List (α × β)),
      (d.map Prod.fst).Nodup →
      ((rows.foldl (fun d p => dict_insert d p.1 p.2) d).map Prod.fst).Nodup
  | [], _, h => h
  | r :: rest, d, h => by
    rw [List.foldl_cons]
    apply foldl_insert_keys_nodup rest
    rw [dict_insert_keys]
    by_cases hmem : r.1 ∈ d.map Prod.fst
    · simpa [hmem] using h
    · simp [hmem, List.nodup_append, List.disjoint_singleton, h]

/-- The forward map built from dataframe rows has no duplicate keys. -/
theorem micro2macro_keys_nodup {μ κ : Type} [DecidableEq μ]
    (rows : List (μ × κ)) :
    ((get_micro2macro_dict_from_pd_df rows).map Prod.fst).Nodup :=
  foldl_insert_keys_nodup rows [] (by simp)

/-- A successful dict lookup exhibits a member pair. -/
theorem dict_lookup_mem {α β : Type} [DecidableEq α] :
    ∀ (l : List (α × β)) (x : α) (b : β),
      dict_lookup l x = some b → (x, b) ∈ l
  | [], x, b => by simp [dict_lookup]
  | (a, c) :: rest, x, b => by
    simp only [dict_lookup]
    by_cases hx : x = a
    · simp only [if_pos hx, Option.some_inj]
      intro h
      subst hx
      subst h
      exact List.mem_cons_self _ _
    · simp only [if_neg hx]
      intro h
      exact List.mem_cons_of_mem _ (dict_lookup_mem rest x b h)

/-- With nodup keys, a key determines its value among the member pairs. -/
theorem keys_nodup_value_unique {α β : Type} [DecidableEq α] :
    ∀ (l : List (α × β)), (l.map Prod.fst).Nodup →
      ∀ (x : α) (b b' : β), (x, b) ∈ l → (x, b') ∈ l → b = b'
  | [], _, x, b, b', h1, _ => by simp at h1
  | (a, c) :: rest, hnd, x, b, b', h1, h2 => by
    simp only [List.map_cons, List.nodup_cons] at hnd
    rcases List.mem_cons.mp h1 with h1h | h1t
    · rcases List.mem_cons.mp h2 with h2h | h2t
      · simp only [Prod.mk.injEq] at h1h h2h
        rw [h1h.2, h2h.2]
      · exfalso
        simp only [Prod.mk.injEq] at h1h
        have hx : x ∈ rest.map Prod.fst := List.mem_map_of_mem Prod.fst h2t
        rw [h1h.1] at hx
        exact hnd.1 hx
    · rcases List.mem_cons.mp h2 with h2h | h2t
      · exfalso
        simp only [Prod.mk.injEq] at h2h
        have hx : x ∈ rest.map Prod.fst := List.mem_map_of_mem Prod.fst h1t
        rw [h2h.1] at hx
        exact hnd.1 hx
      · exact keys_nodup_value_unique rest hnd.2 x b b' h1t h2t

/-- Membership in the first-seen accumulator run. -/
theorem mem_first_seen_aux {α : Type} [DecidableEq α] :
    ∀ (l seen : List α) (c : α),
      c ∈ first_seen_aux l seen ↔ c ∈ l ∧ c ∉ seen
  | [], seen, c => by simp [first_seen_aux]
  | a :: rest, seen, c => by
    simp only [first_seen_aux]
    by_cases ha : a ∈ seen
    · rw [if_pos ha, mem_first_seen_aux rest seen c]
      constructor
      · rintro ⟨hr, hs⟩
        exact ⟨List.mem_cons_of_mem a hr, hs⟩
      · rintro ⟨hl, hs⟩
        rcases List.mem_cons.mp hl with rfl | hr
        · exact absurd ha hs
        · exact ⟨hr, hs⟩
    · rw [if_neg ha]
      simp only [List.mem_cons, mem_first_seen_aux rest (a :: seen) c]
      constructor
      · rintro (rfl | ⟨hr, hs⟩)
        · exact ⟨Or.inl rfl, ha⟩
        · push_neg at hs
          exact ⟨Or.inr hr, hs.2⟩
      · rintro ⟨rfl | hr, hs⟩
        · exact Or.inl rfl
        · by_cases hca : c = a
          · exact Or.inl hca
          · exact Or.inr ⟨hr, by simp [List.mem_cons, hca, hs]⟩

/-- `first_seen` keeps exactly the elements of the list. -/
theorem mem_first_seen {α : Type} [DecidableEq α] (l : List α) (c : α) :
    c ∈ first_seen l ↔ c ∈ l := by
  rw [first_seen, mem_first_seen_aux]
  simp

/-- Looking up a key of a graph-shaped dict finds the function value. -/
theorem dict_lookup_graph {α β : Type} [DecidableEq α] (g : α → β) :
    ∀ (l : List α) (c : α), c ∈ l →
      dict_lookup (l.map (fun a => (a, g a))) c = some (g c)
  | [], c, h => by simp at h
  | a :: rest, c, h => by
    simp only [List.map_cons, dict_lookup]
    by_cases hca : c = a
    · simp [hca]
    · rcases List.mem_cons.mp h with h1 | h2
      · exact absurd h1 hca
      · rw [if_neg hca]
        exact dict_lookup_graph g rest c h2

/-- Any successful lookup in a graph-shaped dict returns the function value. -/
theorem dict_lookup_graph_val {α β : Type} [DecidableEq α] (g : α → β) :
    ∀ (l : List α) (c : α) (b : β),
      dict_lookup (l.map (fun a => (a, g a))) c = some b → b = g c
  | [], c, b => by simp [dict_lookup]
  | a :: rest, c, b => by
    simp only [List.map_cons, dict_lookup]
    by_cases hca : c = a
    · simp only [if_pos hca, Option.some_inj]
      intro h
      rw [← h, hca]
    · rw [if_neg hca]
      exact dict_lookup_graph_val g rest c b

/-- Looking up a macro node that occurs among the forward map's values finds
its member list in the inverse map. -/
theorem inverse_lookup_of_mem {μ κ : Type} [DecidableEq κ]
    (m : List (μ × κ)) (c : κ) (hc : c ∈ first_seen (m.map Prod.snd)) :
    dict_lookup (get_macro2microlist_dict_from_micro2macro_dict m) c
      = some ((m.filter (fun p => p.2 = c)).map Prod.fst) := by
  unfold get_macro2microlist_dict_from_micro2macro_dict
  exact dict_lookup_graph _ _ c hc

/-- Any successful lookup in the inverse map returns the filtered member
list of its key. -/
theorem inverse_lookup_val {μ κ : Type} [DecidableEq κ]
    (m : List (μ × κ)) (c : κ) (b : List μ)
    (h : dict_lookup (get_macro2microlist_dict_from_micro2macro_dict m) c
      = some b) :
    b = (m.filter (fun p => p.2 = c)).map Prod.fst := by
  unfold get_macro2microlist_dict_from_micro2macro_dict at h
  exact dict_lookup_graph_val _ _ c b h

/-- Membership in one inverse-map list is membership of the pair in the
forward map. -/
theorem mem_inverse_list {μ κ : Type} [DecidableEq κ]
    (m : List (μ × κ)) (f : μ) (c : κ) :
    f ∈ (m.filter (fun p => p.2 = c)).map Prod.fst ↔ (f, c) ∈ m := by
  constructor
  · intro h
    rcases List.mem_map.mp h with ⟨p, hp, hpf⟩
    rcases List.mem_filter.mp hp with ⟨hpm, hpc⟩
    have hc : p.2 = c := by simpa using hpc
    rw [← hpf, ← hc, Prod.mk.eta]
    exact hpm
  · intro h
    exact List.mem_map.mpr ⟨(f, c), List.mem_filter.mpr ⟨h, by simp⟩, rfl⟩

/-- C4: for every fine node `f` that is a key of the forward map, `f` appears
in the inverse map's list for `forward_map[f]` and in the list of no other
coarse node, and every inverse-map list is a sublist of the forward map's key
sequence (grouping in first-seen iteration order, not sorting). -/
theorem mapping_round_trip {μ κ : Type} [DecidableEq μ] [DecidableEq κ]
    (rows m : List (μ × κ)) (inv : List (κ × List μ))
    (hm : m = get_micro2macro_dict_from_pd_df rows)
    (hinv : inv = get_macro2microlist_dict_from_micro2macro_dict m)
    (f : μ) (c : κ) (hf : dict_lookup m f = some c) :
    (∃ lst, dict_lookup inv c = some lst ∧ f ∈ lst) ∧
    (∀ c' lst', dict_lookup inv c' = some lst' → f ∈ lst' → c' = c) ∧
    (∀ c' lst', dict_lookup inv c' = some lst' →
      List.Sublist lst' (m.map Prod.fst)) := by
  subst hinv
  have hnd : (m.map Prod.fst).Nodup := by
    rw [hm]
    exact micro2macro_keys_nodup rows
  have hfc : (f, c) ∈ m := dict_lookup_mem m f c hf
  have hcm : c ∈ m.map Prod.snd := by
    simpa using List.mem_map_of_mem Prod.snd hfc
  have hcfs : c ∈ first_seen (m.map Prod.snd) := (mem_first_seen _ c).mpr hcm
  refine ⟨⟨(m.filter (fun p => p.2 = c)).map Prod.fst, ?_, ?_⟩, ?_, ?_⟩
  · exact inverse_lookup_of_mem m c hcfs
  · exact (mem_inverse_list m f c).mpr hfc
  · intro c' lst' hl' hfmem
    have hval : lst' = (m.filter (fun p => p.2 = c')).map Prod.fst :=
      inverse_lookup_val m c' lst' hl'
    rw [hval] at hfmem
    have hfc' : (f, c') ∈ m := (mem_inverse_list m f c').mp hfmem
    exact keys_nodup_value_unique m hnd f c' c hfc' hfc
  · intro c' lst' hl'
    have hval : lst' = (m.filter (fun p => p.2 = c')).map Prod.fst :=
      inverse_lookup_val m c' lst' hl'
    rw [hval]
    exact List.Sublist.map Prod.fst (List.filter_sublist m)

/-- Witness for C4 on the end-to-end mapping 1→10, 2→10, 3→20. -/
theorem mapping_round_trip_witness :
    (∃ lst, dict_lookup (get_macro2microlist_dict_from_micro2macro_dict
        (get_micro2macro_dict_from_pd_df [(1, 10), (2, 10), (3, 20)])) 10
        = some lst ∧ 1 ∈ lst) ∧
    (∀ c' lst', dict_lookup (get_macro2microlist_dict_from_micro2macro_dict
        (get_micro2macro_dict_from_pd_df [(1, 10), (2, 10), (3, 20)])) c'
        = some lst' → 1 ∈ lst' → c' = 10) ∧
    (∀ c' lst', dict_lookup (get_macro2microlist_dict_from_micro2macro_dict
        (get_micro2macro_dict_from_pd_df [(1, 10), (2, 10), (3, 20)])) c'
        = some lst' →
      List.Sublist lst' ((get_micro2macro_dict_from_pd_df
        [(1, 10), (2, 10), (3, 20)]).map Prod.fst)) :=
  mapping_round_trip [(1, 10), (2, 10), (3, 20)] _ _ rfl rfl 1 10 (by decide)

/-! ### Helper lemmas for the selective coloring count -/

/-- `np.linspace(0, 1, k)` has exactly `k` entries. -/
theorem np_linspace01_length (k : ℕ) : (np_linspace01 k).length = k := by
  unfold np_linspace01
  split <;> simp

/-- The `k` evenly spaced sample points are pairwise distinct. -/
theorem np_linspace01_nodup (k : ℕ) : (np_linspace01 k).Nodup := by
  unfold np_linspace01
  split
  next hk =>
    interval_cases k <;> simp
  next hk =>
    push_neg at hk
    have h2k : 2 ≤ k := hk
    have hden : ((k : ℚ) - 1) ≠ 0 := by
      have h2q : (2 : ℚ) ≤ (k : ℚ) := by exact_mod_cast h2k
      intro h0
      have : (k : ℚ) = 1 := by linarith
      linarith
    have hinj : Function.Injective (fun i : ℕ => (i : ℚ) / ((k : ℚ) - 1)) := by
      intro i j hij
      simp only at hij
      have h2 : (i : ℚ) = (j : ℚ) := by
        calc (i : ℚ) = (i : ℚ) / ((k : ℚ) - 1) * ((k : ℚ) - 1) := by
              field_simp
          _ = (j : ℚ) / ((k : ℚ) - 1) * ((k : ℚ) - 1) := by rw [hij]
          _ = (j : ℚ) := by field_simp
      exact_mod_cast h2
    exact List.Nodup.map hinj (List.nodup_range k)

/-- One step of the walk of lines 73-79: the loop succeeds as long as the
palette holds enough colors for the big macro nodes still to come, the
non-neutral colors it assigns are exactly the palette slice starting at the
current index, in order, and nodewise every macro node with at most one member
gets the neutral color while every bigger one gets a colormap color. -/
theorem selective_go_spec {μ κ : Type} :
    ∀ (inv : List (κ × List μ)) (palette : List ℚ) (idx : ℕ),
      idx + number_of_big_macro_nodes inv ≤ palette.length →
      ∃ l, selective_go inv palette idx = some l ∧
        (l.map Prod.snd).filterMap cmap_part
          = (palette.drop idx).take (number_of_big_macro_nodes inv) ∧
        List.Forall₂ (fun (p : κ × List μ) (q : κ × MacroColor) =>
          q.1 = p.1 ∧ (p.2.length ≤ 1 → q.2 = MacroColor.neutral) ∧
          (1 < p.2.length → ∃ t, q.2 = MacroColor.cmapColor t)) inv l := by
  intro inv
  induction inv with
  | nil =>
    intro palette idx _
    exact ⟨[], rfl, by simp [number_of_big_macro_nodes], List.Forall₂.nil⟩
  | cons p rest ih =>
    intro palette idx h
    by_cases hp : 1 < p.2.length
    · have hn : number_of_big_macro_nodes (p :: rest)
          = number_of_big_macro_nodes rest + 1 := by
        simp [number_of_big_macro_nodes, List.filter_cons, hp]
      rw [hn] at h
      have hidx : idx < palette.length := by omega
      obtain ⟨l, hl, hcolors, hrel⟩ := ih palette (idx + 1) (by omega)
      refine ⟨(p.1, MacroColor.cmapColor palette[idx]) :: l, ?_, ?_, ?_⟩
      · simp [selective_go, hp, List.getElem?_eq_getElem hidx, hl]
      · simp only [List.map_cons, List.filterMap_cons, cmap_part]
        rw [hcolors, hn, List.drop_eq_getElem_cons hidx, List.take_succ_cons]
      · refine List.Forall₂.cons ⟨rfl, ?_, ?_⟩ hrel
        · intro hle
          exact absurd hp (by omega)
        · intro _
          exact ⟨palette[idx], rfl⟩
    · have hn : number_of_big_macro_nodes (p :: rest)
          = number_of_big_macro_nodes rest := by
        simp [number_of_big_macro_nodes, List.filter_cons, hp]
      rw [hn] at h
      obtain ⟨l, hl, hcolors, hrel⟩ := ih palette idx h
      refine ⟨(p.1, MacroColor.neutral) :: l, ?_, ?_, ?_⟩
      · simp [selective_go, hp, hl]
      · simp only [List.map_cons, List.filterMap_cons, cmap_part]
        rw [hcolors, hn]
      · exact List.Forall₂.cons ⟨rfl, fun _ => rfl, fun h1 => absurd h1 hp⟩ hrel

/-- C7: when `all_colorful` is false, the loop of lines 69-79 succeeds, the
non-neutral colors it assigns are, in order, exactly the palette of
`k = number_of_big_macro_nodes` evenly spaced colormap samples — pairwise
distinct, so the number of distinct non-neutral colors equals the number of
coarse nodes with more than one member — and every coarse node with exactly
one member receives the fixed neutral node color. -/
theorem selective_coloring_count {μ κ : Type} (inv : List (κ × List μ)) :
    ∃ l, macro_colors_selective inv = some l ∧
      (l.map Prod.snd).filterMap cmap_part
        = np_linspace01 (number_of_big_macro_nodes inv) ∧
      ((l.map Prod.snd).filterMap cmap_part).Nodup ∧
      ((l.map Prod.snd).filterMap cmap_part).length
        = number_of_big_macro_nodes inv ∧
      List.Forall₂ (fun (p : κ × List μ) (q : κ × MacroColor) =>
        q.1 = p.1 ∧ (p.2.length = 1 → q.2 = MacroColor.neutral)) inv l := by
  obtain ⟨l, hl, hcolors, hrel⟩ :=
    selective_go_spec inv (np_linspace01 (number_of_big_macro_nodes inv)) 0
      (by simp [np_linspace01_length])
  have hc1 : (l.map Prod.snd).filterMap cmap_part
      = np_linspace01 (number_of_big_macro_nodes inv) := by
    rw [hcolors, List.drop_zero]
    exact List.take_of_length_le (le_of_eq (np_linspace01_length _))
  refine ⟨l, hl, hc1, ?_, ?_, ?_⟩
  · rw [hc1]
    exact np_linspace01_nodup _
  · rw [hc1]
    exact np_linspace01_length _
  · exact hrel.imp (fun p q hpq => ⟨hpq.1, fun h1 => hpq.2.1 (by omega)⟩)

/-- Witness for C7 on a concrete inverse map with one merged and one singleton
coarse node. -/
theorem selective_coloring_count_witness :
    ∃ l, macro_colors_selective [(10, [1, 2]), (20, [3])] = some l ∧
      (l.map Prod.snd).filterMap cmap_part
        = np_linspace01 (number_of_big_macro_nodes [(10, [1, 2]), (20, [3])]) ∧
      ((l.map Prod.snd).filterMap cmap_part).Nodup ∧
      ((l.map Prod.snd).filterMap cmap_part).length
        = number_of_big_macro_nodes [(10, [1, 2]), (20, [3])] ∧
      List.Forall₂ (fun (p : ℕ × List ℕ) (q : ℕ × MacroColor) =>
        q.1 = p.1 ∧ (p.2.length = 1 → q.2 = MacroColor.neutral))
        [(10, [1, 2]), (20, [3])] l :=
  selective_coloring_count [(10, [1, 2]), (20, [3])]

end CoarseNet
